import Mathlib

/-!
Shallow embedding of the `smt-rs` sparse Merkle tree (src/types.rs, src/store.rs,
src/tree.rs) and proofs about the claims of its specification.

Bytes are modelled as `List Nat` (each entry a value below 256); 32-bit machine
words are `Nat` with explicit reduction modulo 2^32 where the Rust `u32`
arithmetic wraps.
-/

set_option maxRecDepth 4096
set_option linter.unusedVariables false

abbrev Bytes := List Nat

/-! ## Blake2s-256 (the `blake2` crate's `Blake2s`, unkeyed, 32-byte output) -/

/-- 2^32, the modulus of `u32` arithmetic. -/
def w32 : Nat := 4294967296

/-- Rotate a 32-bit word right by `n` bits (0 < n < 32). -/
def ror32 (x n : Nat) : Nat := x / 2 ^ n + x % 2 ^ n * 2 ^ (32 - n)

/-- The Blake2s initialisation vector. -/
def blakeIV : List Nat :=
  [0x6A09E667, 0xBB67AE85, 0x3C6EF372, 0xA54FF53A,
   0x510E527F, 0x9B05688C, 0x1F83D9AB, 0x5BE0CD19]

/-- The Blake2 message schedule permutations. -/
def blakeSigma : List (List Nat) :=
  [[0, 1, 2, 3, 4, 5, 6, 7, 8, 9, 10, 11, 12, 13, 14, 15],
   [14, 10, 4, 8, 9, 15, 13, 6, 1, 12, 0, 2, 11, 7, 5, 3],
   [11, 8, 12, 0, 5, 2, 15, 13, 10, 14, 3, 6, 7, 1, 9, 4],
   [7, 9, 3, 1, 13, 12, 11, 14, 2, 6, 5, 10, 4, 0, 15, 8],
   [9, 0, 5, 7, 2, 4, 10, 15, 14, 1, 11, 12, 6, 8, 3, 13],
   [2, 12, 6, 10, 0, 11, 8, 3, 4, 13, 7, 5, 15, 14, 1, 9],
   [12, 5, 1, 15, 14, 13, 4, 10, 0, 7, 6, 3, 9, 2, 8, 11],
   [13, 11, 7, 14, 12, 1, 3, 9, 5, 0, 15, 4, 8, 6, 2, 10],
   [6, 15, 14, 9, 11, 3, 0, 8, 12, 2, 13, 7, 1, 4, 10, 5],
   [10, 2, 8, 4, 7, 6, 1, 5, 15, 11, 9, 14, 3, 12, 13, 0]]

/-- The Blake2s `G` mixing function on the 16-word working vector `v`. -/
def gmix (v : List Nat) (a b c d x y : Nat) : List Nat :=
  let va := (v.getD a 0 + v.getD b 0 + x) % w32
  let vd := ror32 (v.getD d 0 ^^^ va) 16
  let vc := (v.getD c 0 + vd) % w32
  let vb := ror32 (v.getD b 0 ^^^ vc) 12
  let va2 := (va + vb + y) % w32
  let vd2 := ror32 (vd ^^^ va2) 8
  let vc2 := (vc + vd2) % w32
  let vb2 := ror32 (vb ^^^ vc2) 7
  (((v.set a va2).set b vb2).set c vc2).set d vd2

/-- One Blake2s round: eight `G` applications scheduled by `s`. -/
def blakeRound (m : List Nat) (v : List Nat) (s : List Nat) : List Nat :=
  let g := fun (v : List Nat) (a b c d i j : Nat) =>
    gmix v a b c d (m.getD (s.getD i 0) 0) (m.getD (s.getD j 0) 0)
  let v := g v 0 4 8 12 0 1
  let v := g v 1 5 9 13 2 3
  let v := g v 2 6 10 14 4 5
  let v := g v 3 7 11 15 6 7
  let v := g v 0 5 10 15 8 9
  let v := g v 1 6 11 12 10 11
  let v := g v 2 7 8 13 12 13
  g v 3 4 9 14 14 15

/-- The Blake2s compression function `F`. -/
def blakeCompress (h : List Nat) (m : List Nat) (t : Nat) (f : Bool) : List Nat :=
  let v := h ++ blakeIV
  let v := v.set 12 (v.getD 12 0 ^^^ t % w32)
  let v := v.set 13 (v.getD 13 0 ^^^ t / w32)
  let v := if f then v.set 14 (v.getD 14 0 ^^^ 0xFFFFFFFF) else v
  let v := blakeSigma.foldl (blakeRound m) v
  (List.range 8).map fun i => h.getD i 0 ^^^ v.getD i 0 ^^^ v.getD (i + 8) 0

/-- A 64-byte block as 16 little-endian 32-bit words. -/
def bytesToWords (b : Bytes) : List Nat :=
  (List.range 16).map fun i =>
    b.getD (4 * i) 0 + b.getD (4 * i + 1) 0 * 256 +
    b.getD (4 * i + 2) 0 * 65536 + b.getD (4 * i + 3) 0 * 16777216

/-- The 8-word state as 32 little-endian bytes. -/
def wordsToBytes (ws : List Nat) : Bytes :=
  (ws.map fun w => [w % 256, w / 256 % 256, w / 65536 % 256, w / 16777216 % 256]).flatten

/-- Process a message block by block; the final (possibly short) block is
zero-padded and compressed with the total byte count and the final flag.
Structural recursion on a fuel bound (each step consumes 64 bytes, so a fuel
of `msg.length` always outlasts the loop; the fuel-0 fallback coincides with
the final-block case and is only reached when `msg` is empty). -/
def blake2sAux : Nat → List Nat → Bytes → Nat → List Nat
  | 0, h, msg, t =>
    blakeCompress h (bytesToWords (msg ++ List.replicate (64 - msg.length) 0))
      (t + msg.length) true
  | fuel + 1, h, msg, t =>
    if msg.length ≤ 64 then
      blakeCompress h (bytesToWords (msg ++ List.replicate (64 - msg.length) 0))
        (t + msg.length) true
    else
      blake2sAux fuel (blakeCompress h (bytesToWords (msg.take 64)) (t + 64) false)
        (msg.drop 64) (t + 64)

/-- Blake2s-256 of a byte string: parameter block `digest_length = 32`,
no key, fanout 1, depth 1. -/
def blake2s256 (msg : Bytes) : Bytes :=
  wordsToBytes
    (blake2sAux msg.length (blakeIV.set 0 (blakeIV.getD 0 0 ^^^ 0x01010020)) msg 0)

/-! ## `HashValue` (src/types.rs)

`HashValue` wraps `[u8; 32]`; modelled as a byte list, with length 32 stated
as a hypothesis where a claim needs it. -/

abbrev HashValue := Bytes

/-- `HashValue::digest_of`: Blake2s-256 of the data. -/
def digestOf (data : Bytes) : HashValue := blake2s256 data

/-- `HashValue::placeholder()`: the all-zero digest. -/
def placeholder : HashValue := List.replicate 32 0

/-- `HashValue::is_placeholder`. -/
def isPlaceholder (h : HashValue) : Bool := h = placeholder

/-- `HashValue::has_bit_set`: `(self.hash[index / 8] >> (7 - index % 8)) & 1 != 0`. -/
def hasBitSet (h : HashValue) (index : Nat) : Bool :=
  (h.getD (index / 8) 0 >>> (7 - index % 8)) &&& 1 != 0

/-- `HashValue::iter_bits`: the 256 bits of the digest, MSB-first in each byte. -/
def bitsOf (h : HashValue) : List Bool :=
  (List.range 256).map fun i => hasBitSet h i

/-- `HashValue::common_prefix_bits_len`: zip both bit streams and count the
agreeing prefix. -/
def commonPrefixBitsLen (a b : HashValue) : Nat :=
  (((bitsOf a).zip (bitsOf b)).takeWhile fun p => p.1 == p.2).length

/-! ## Nodes and the codec (src/types.rs) -/

inductive Node where
  | internal : HashValue → HashValue → Node
  | leaf : HashValue → HashValue → Node
deriving DecidableEq, Repr

/-- `Node::is_leaf`. -/
def Node.isLeaf : Node → Bool
  | .leaf _ _ => true
  | _ => false

/-- `Node::encode`: `tag(1) || a(32) || b(32)` with tag 0 for Leaf and 1 for
Internal, paired with the digest of those bytes (the node's address).
The Rust function returns `Result` but never errors. -/
def Node.encode : Node → HashValue × Bytes
  | .leaf k v => let raw := 0 :: (k ++ v); (digestOf raw, raw)
  | .internal l r => let raw := 1 :: (l ++ r); (digestOf raw, raw)

/-- `Node::decode`: fails unless the length is 65 and the tag is 0 or 1. -/
def Node.decode (raw : Bytes) : Except String Node :=
  if raw.length = 65 then
    let tag := raw.getD 0 0
    let contents := ((raw.drop 1).take 32, raw.drop 33)
    if tag = 0 then .ok (.leaf contents.1 contents.2)
    else if tag = 1 then .ok (.internal contents.1 contents.2)
    else .error "Unrecognized node tag"
  else .error "not an encoded node"

/-! ## The in-memory store (src/store.rs)

Rust uses two `HashMap<HashValue, Vec<u8>>`s; modelled as association lists
where insertion removes any previous binding, so map equality is list
equality up to binding order and lookup is the `HashMap` lookup. -/

/-- `HashMap::get`. -/
def slookup (k : HashValue) : List (HashValue × Bytes) → Option Bytes
  | [] => none
  | (k', v) :: t => if k' = k then some v else slookup k t

/-- `HashMap::insert` (canonicalised: the new binding replaces any old one). -/
def sinsert (k : HashValue) (v : Bytes) (l : List (HashValue × Bytes)) :
    List (HashValue × Bytes) :=
  (k, v) :: l.filter fun p => !(p.1 == k)

/-- `HashMap::remove`. -/
def serase (k : HashValue) (l : List (HashValue × Bytes)) : List (HashValue × Bytes) :=
  l.filter fun p => !(p.1 == k)

structure MemoryStore where
  nodes : List (HashValue × Bytes)
  values : List (HashValue × Bytes)
deriving DecidableEq, Repr

/-- `MemoryStore::new`. -/
def MemoryStore.new : MemoryStore := ⟨[], []⟩

/-- `MemoryStore::get_value` (as the `Option` its callers use). -/
def MemoryStore.getValue (s : MemoryStore) (key : HashValue) : Option Bytes :=
  slookup key s.values

/-- `MemoryStore::set_value`. -/
def MemoryStore.setValue (s : MemoryStore) (key : HashValue) (value : Bytes) :
    MemoryStore :=
  { s with values := sinsert key value s.values }

/-- `MemoryStore::delete_value`. -/
def MemoryStore.deleteValue (s : MemoryStore) (key : HashValue) : MemoryStore :=
  { s with values := serase key s.values }

/-- `MemoryStore::get_node` (as the `Option` underlying the `Result`). -/
def MemoryStore.getNode (s : MemoryStore) (key : HashValue) : Option Bytes :=
  slookup key s.nodes

/-- `MemoryStore::set_node` (returns the key in Rust; the key is already at
hand at every call site, so only the store is returned here). -/
def MemoryStore.setNode (s : MemoryStore) (key : HashValue) (value : Bytes) :
    MemoryStore :=
  { s with nodes := sinsert key value s.nodes }

/-- `MemoryStore::delete_node`. -/
def MemoryStore.deleteNode (s : MemoryStore) (key : HashValue) : MemoryStore :=
  { s with nodes := serase key s.nodes }

/-! ## The tree engine (src/tree.rs)

Mutating functions return the (possibly partially mutated) store alongside the
`Result`, mirroring Rust's in-place mutation of `self.store`; a Rust panic
(slice index out of bounds) is modelled as an error whose message starts with
`panic`. -/

/-- The quadruple returned by `get_sidenodes` / `walk_for_subnodes`:
`(sidenodes, pathnodes, old_leaf_node, sibling_data)`. -/
structure Walked where
  sidenodes : List HashValue
  pathnodes : List HashValue
  leafNode : Option Node
  sibdata : Option Bytes
deriving DecidableEq, Repr

/-- `SparseMerkleTree::walk_for_subnodes`: descend along `path`'s bits from
depth `i`, accumulating siblings and traversed children, for at most `fuel`
more steps (`fuel + i = 256` at the top call). Both accumulators are pushed
root-side first and reversed on every exit, exactly as in the source. -/
def walkForSubnodes (st : MemoryStore) (path : HashValue) :
    Nat → Nat → List HashValue → List HashValue → Node → Except String Walked
  | 0, _, sidenodes, pathnodes, node =>
    .ok ⟨sidenodes.reverse, pathnodes.reverse, some node, none⟩
  | fuel + 1, i, sidenodes, pathnodes, node =>
    match node with
    | .leaf _ _ => .error "expected internal node"
    | .internal left right =>
      let sel := if hasBitSet path i then (left, right) else (right, left)
      let sidenodes' := sidenodes ++ [sel.1]
      let pathnodes' := pathnodes ++ [sel.2]
      if isPlaceholder sel.2 then
        .ok ⟨sidenodes'.reverse, pathnodes'.reverse, none, none⟩
      else
        match st.getNode sel.2 with
        | none => .error "Invalid Key"
        | some raw =>
          match Node.decode raw with
          | .error e => .error e
          | .ok node' =>
            if node'.isLeaf then
              .ok ⟨sidenodes'.reverse, pathnodes'.reverse, some node', none⟩
            else
              walkForSubnodes st path fuel (i + 1) sidenodes' pathnodes' node'

/-- `SparseMerkleTree::get_sidenodes` (the `siblingdata` flag is dead in the
source and dropped). -/
def getSidenodes (st : MemoryStore) (path root : HashValue) : Except String Walked :=
  let pnodes := [root]
  if isPlaceholder root then .ok ⟨[], pnodes, none, none⟩
  else
    match st.getNode root with
    | none => .error "Invalid Key"
    | some raw =>
      match Node.decode raw with
      | .error e => .error e
      | .ok node =>
        if node.isLeaf then .ok ⟨[], pnodes, some node, none⟩
        else walkForSubnodes st path 256 0 [] pnodes node

/-- `SparseMerkleTree::delete_for_sidenode`: after the presence checks, delete
every pathnode and return `placeholder` as the new root (the collapse climb is
commented out in the source). All checks precede any mutation. -/
def deleteForSidenode (st : MemoryStore) (path : HashValue)
    (sidenodes pathnodes : List HashValue) (oldLeafNode : Option Node) :
    Except String HashValue × MemoryStore :=
  match pathnodes.head? with
  | none => (.error "panic: pathnode should have root", st)
  | some p0 =>
    if isPlaceholder p0 then (.error "Key is already empty", st)
    else
      match oldLeafNode with
      | none => (.error "old_leaf_data is None", st)
      | some (.internal _ _) => (.error "expected leaf", st)
      | some (.leaf actualPath _) =>
        if actualPath = path then
          (.ok placeholder, pathnodes.foldl (fun s k => s.deleteNode k) st)
        else (.error "Key is already empty", st)

/-- The per-level body of the final `for index in 0..HashValue::DEPTH` loop of
`update_with_sidenodes`: pick the stored or synthesised sidenode, skip the
level when there is none, else hash in a new internal node. The node's side is
chosen by `path.has_bit_set(common_prefix_count)`, which panics (index out of
bounds) when `common_prefix_count = 256`. -/
def bubbleLoop (path : HashValue) (commonPrefixCount : Nat)
    (sidenodes : List HashValue) :
    Nat → Nat → MemoryStore → HashValue → Except String HashValue × MemoryStore
  | 0, _, st, nextHash => (.ok nextHash, st)
  | fuel + 1, i, st, nextHash =>
    let sn : Option HashValue :=
      match sidenodes.get? i with
      | some s => some s
      | none =>
        if commonPrefixCount ≠ 256 ∧ commonPrefixCount > 255 - i then
          some placeholder
        else none
    match sn with
    | none => bubbleLoop path commonPrefixCount sidenodes fuel (i + 1) st nextHash
    | some sidenode =>
      if 256 ≤ commonPrefixCount then
        (.error "panic: index out of bounds", st)
      else
        let node :=
          if hasBitSet path commonPrefixCount then Node.internal sidenode nextHash
          else Node.internal nextHash sidenode
        let enc := node.encode
        bubbleLoop path commonPrefixCount sidenodes fuel (i + 1)
          (st.setNode enc.1 enc.2) enc.1

/-- `SparseMerkleTree::update_with_sidenodes`. `selfRoot` is the tree's `root`
field (returned unchanged on the idempotent early exit). Note the Rust
function's final `Ok(current_hash)` refers to the *outer* `current_hash`
binding — the new leaf's address — because the `let current_hash` inside the
`if` block and the loop body only shadow it locally; the bubbled `next_hash`
is discarded. The model reproduces that. -/
def updateWithSidenodes (selfRoot : HashValue) (st : MemoryStore)
    (path : HashValue) (value : Bytes) (sidenodes pathnodes : List HashValue)
    (oldLeafNode : Option Node) : Except String HashValue × MemoryStore :=
  let valueHash := digestOf value
  let node := Node.leaf path valueHash
  let enc := node.encode
  let currentHash := enc.1
  let st1 := st.setNode enc.1 enc.2
  match pathnodes.head? with
  | none => (.error "pathnodes is empty", st1)
  | some pathNodeRoot =>
    -- `old_value_hash` / `common_prefix_count` block
    let ovhRes : Except String (Option HashValue × Nat) :=
      if isPlaceholder pathNodeRoot then .ok (none, 256)
      else
        match oldLeafNode with
        | none => .error "old_leaf_data is None"
        | some (.internal _ _) => .error "expected leaf"
        | some (.leaf actualPath actualValueHash) =>
          .ok (some actualValueHash, commonPrefixBitsLen path actualPath)
    match ovhRes with
    | .error e => (.error e, st1)
    | .ok (oldValueHash, commonPrefixCount) =>
      if hcpc : commonPrefixCount ≠ 256 then
        -- splitter internal node at the divergence frontier
        let node2 :=
          if hasBitSet path commonPrefixCount then
            Node.internal pathNodeRoot currentHash
          else Node.internal currentHash pathNodeRoot
        let enc2 := node2.encode
        let st2 := st1.setNode enc2.1 enc2.2
        let st3 := (pathnodes.drop 1).foldl (fun s k => s.deleteNode k) st2
        match bubbleLoop path commonPrefixCount sidenodes 256 0 st3 enc2.1 with
        | (.error e, st4) => (.error e, st4)
        | (.ok _, st4) => (.ok currentHash, st4.setValue path value)
      else
        match oldValueHash with
        | some uovh =>
          if uovh = valueHash then (.ok selfRoot, st1)
          else
            let st2 := (st1.deleteNode pathNodeRoot).deleteValue path
            let st3 := (pathnodes.drop 1).foldl (fun s k => s.deleteNode k) st2
            match bubbleLoop path commonPrefixCount sidenodes 256 0 st3 currentHash with
            | (.error e, st4) => (.error e, st4)
            | (.ok _, st4) => (.ok currentHash, st4.setValue path value)
        | none =>
          let st3 := (pathnodes.drop 1).foldl (fun s k => s.deleteNode k) st1
          match bubbleLoop path commonPrefixCount sidenodes 256 0 st3 currentHash with
          | (.error e, st4) => (.error e, st4)
          | (.ok _, st4) => (.ok currentHash, st4.setValue path value)

/-- `SparseMerkleTree::update_for_root`: hash the key, walk, then delete when
the value is the empty `DEFAULT_VALUE` (swallowing delete errors and keeping
the passed root) or insert otherwise. -/
def updateForRoot (selfRoot : HashValue) (st : MemoryStore) (key value : Bytes)
    (root : HashValue) : Except String HashValue × MemoryStore :=
  let path := digestOf key
  match getSidenodes st path root with
  | .error e => (.error e, st)
  | .ok w =>
    if value = [] then
      match deleteForSidenode st path w.sidenodes w.pathnodes w.leafNode with
      | (.ok r, st') => (.ok r, st'.deleteValue path)
      | (.error e, st') =>
        -- a modelled Rust panic is not a `Result` and is not caught by the match
        if e = "panic: pathnode should have root" then (.error e, st')
        else (.ok root, st')
    else updateWithSidenodes selfRoot st path value w.sidenodes w.pathnodes w.leafNode

/-! ## The tree (src/tree.rs, public API) -/

structure SparseMerkleTree where
  root : HashValue
  store : MemoryStore
deriving DecidableEq, Repr

/-- `SparseMerkleTree::new`. -/
def SparseMerkleTree.new (root : Option HashValue) : SparseMerkleTree :=
  ⟨root.getD placeholder, MemoryStore.new⟩

/-- `SparseMerkleTree::get_root`. -/
def SparseMerkleTree.getRoot (t : SparseMerkleTree) : HashValue := t.root

/-- `SparseMerkleTree::get`: `None` on a placeholder root, else the raw value
store entry for the hashed key (no tree walk). -/
def SparseMerkleTree.get (t : SparseMerkleTree) (key : Bytes) : Option Bytes :=
  if isPlaceholder t.root then none
  else t.store.getValue (digestOf key)

/-- `SparseMerkleTree::update`: delegate to `update_for_root` with the current
root and install the returned root on success; on error the root is unchanged
but store mutations persist. -/
def SparseMerkleTree.update (t : SparseMerkleTree) (key value : Bytes) :
    Except String Unit × SparseMerkleTree :=
  match updateForRoot t.root t.store key value t.root with
  | (.ok r, st) => (.ok (), ⟨r, st⟩)
  | (.error e, st) => (.error e, ⟨t.root, st⟩)

deriving instance DecidableEq for Except

/-! ## Definitions used to state the claims -/

/-- Well-formedness of a node's two digests: 32 bytes each. -/
def nodeWF : Node → Bool
  | .leaf k v => k.length = 32 ∧ v.length = 32
  | .internal l r => l.length = 32 ∧ r.length = 32

/-- The walk outcome under which `delete_for_sidenode` reports the key as
absent: the terminal pathnode is the placeholder, or the walk produced no
terminal leaf (or a non-leaf), or the terminal leaf records a different key
hash. -/
def keyAbsent (w : Walked) (path : HashValue) : Bool :=
  match w.pathnodes.head? with
  | none => false
  | some p0 =>
    if isPlaceholder p0 then true
    else
      match w.leafNode with
      | none => true
      | some (.internal _ _) => true
      | some (.leaf ap _) => ap != path

/-- Whether `update(key, value)` on `t` takes the idempotent early exit of
`update_with_sidenodes`: the walk ends at a leaf for the same key hash whose
stored value hash equals `digest_of(value)`. -/
def updateHitsSameLeaf (t : SparseMerkleTree) (key value : Bytes) : Bool :=
  match getSidenodes t.store (digestOf key) t.root with
  | .error _ => false
  | .ok w =>
    match w.pathnodes.head?, w.leafNode with
    | some p0, some (.leaf actualPath avh) =>
      !isPlaceholder p0 &&
        (commonPrefixBitsLen (digestOf key) actualPath == 256) &&
        (avh == digestOf value)
    | _, _ => false

/-- One step of a descent: the store decodes `p1` to an Internal node whose
child on `path`'s side at depth `d` is `p2`, the recorded sibling being the
other child (the left one when the path bit at `d` is set, else the right). -/
def descentLink (st : MemoryStore) (path : HashValue) (d : Nat)
    (p1 s p2 : HashValue) : Prop :=
  ∃ raw l r, st.getNode p1 = some raw ∧ Node.decode raw = .ok (.internal l r) ∧
    (if hasBitSet path d then (l, r) = (s, p2) else (l, r) = (p2, s))

/-- A chain of descent links starting at node address `p1` and depth `d`,
through the listed (sibling, next pathnode) pairs. -/
def descentChain (st : MemoryStore) (path : HashValue) :
    Nat → HashValue → List (HashValue × HashValue) → Prop
  | _, _, [] => True
  | d, p1, (s, p2) :: rest =>
    descentLink st path d p1 s p2 ∧ descentChain st path (d + 1) p2 rest

/-- The deepest node address reached by a chain starting at `p0`. -/
def chainEnd (p0 : HashValue) (pairs : List (HashValue × HashValue)) : HashValue :=
  (pairs.getLast?.map Prod.snd).getD p0

/-- `isDescent st path d pn sn`: the pathnode list `pn` (shallowest first,
starting at depth `d`) is a store-backed descent along `path` with sibling
list `sn`. Applied below to the *reversed* walk outputs: the walk returns both
arrays deepest-first (index 0 closest to the leaf, last entry the root). -/
def isDescent (st : MemoryStore) (path : HashValue) (d : Nat)
    (pn sn : List HashValue) : Prop :=
  match pn with
  | [] => False
  | p0 :: rest => sn.length = rest.length ∧ descentChain st path d p0 (sn.zip rest)

/-! ## Concrete scenario used by counterexamples and witnesses
(`"a" = [97]`, `"a1" = [97, 49]`, `"b" = [98]`, `"b1" = [98, 49]`) -/

/-- The empty tree. -/
def exTree0 : SparseMerkleTree := SparseMerkleTree.new none

/-- After `update("a", "a1")`. -/
def exTree1 : SparseMerkleTree := (exTree0.update [97] [97, 49]).2

/-- After `update("a", "a1")` then `update("b", "b1")`. -/
def exTree2 : SparseMerkleTree := (exTree1.update [98] [98, 49]).2

/-- After the opposite insertion order: `update("b", "b1")` first. -/
def exTree1b : SparseMerkleTree := (exTree0.update [98] [98, 49]).2

/-- A hand-assembled store for the walk witness: an Internal root whose left
child is the leaf for key `"a"` and whose right child is empty. -/
def wLeafA : Node := Node.leaf (digestOf [97]) (digestOf [97, 49])

def wRoot : Node := Node.internal wLeafA.encode.1 placeholder

def wStore : MemoryStore :=
  (MemoryStore.new.setNode wLeafA.encode.1 wLeafA.encode.2).setNode
    wRoot.encode.1 wRoot.encode.2

/-! ## Library lemmas: store maps, digests, bit view -/

theorem slookup_sinsert_self (k : HashValue) (v : Bytes) (l : List (HashValue × Bytes)) :
    slookup k (sinsert k v l) = some v := by
  simp [slookup, sinsert]

theorem slookup_filter_ne (k k' : HashValue) (l : List (HashValue × Bytes))
    (h : k' ≠ k) :
    slookup k' (l.filter fun p => !(p.1 == k)) = slookup k' l := by
  induction l with
  | nil => rfl
  | cons hd tl ih =>
    obtain ⟨a, b⟩ := hd
    by_cases hak : a = k
    · subst hak
      have hak' : a ≠ k' := fun he => h he.symm
      simp [slookup, List.filter_cons, hak', ih]
    · simp [slookup, List.filter_cons, hak, ih]

theorem slookup_sinsert_ne (k k' : HashValue) (v : Bytes) (l : List (HashValue × Bytes))
    (h : k' ≠ k) : slookup k' (sinsert k v l) = slookup k' l := by
  have hk : k ≠ k' := fun he => h he.symm
  simp only [sinsert, slookup, if_neg hk]
  exact slookup_filter_ne k k' l h

theorem slookup_serase_self (k : HashValue) (l : List (HashValue × Bytes)) :
    slookup k (serase k l) = none := by
  induction l with
  | nil => rfl
  | cons hd tl ih =>
    obtain ⟨a, b⟩ := hd
    by_cases hak : a = k
    · subst hak; simpa [serase, List.filter_cons] using ih
    · simpa [serase, List.filter_cons, hak, slookup] using ih

theorem slookup_serase_ne (k k' : HashValue) (l : List (HashValue × Bytes))
    (h : k' ≠ k) : slookup k' (serase k l) = slookup k' l :=
  slookup_filter_ne k k' l h

/-- Re-inserting a binding that is already present does not change lookups. -/
theorem slookup_sinsert_of_present (k : HashValue) (v : Bytes)
    (l : List (HashValue × Bytes)) (h : slookup k l = some v) (x : HashValue) :
    slookup x (sinsert k v l) = slookup x l := by
  by_cases hx : x = k
  · subst hx; rw [slookup_sinsert_self, h]
  · exact slookup_sinsert_ne k x v l hx

theorem blakeCompress_length (h m : List Nat) (t : Nat) (f : Bool) :
    (blakeCompress h m t f).length = 8 := by
  simp [blakeCompress]

theorem blake2sAux_length (fuel : Nat) :
    ∀ (h msg : List Nat) (t : Nat), (blake2sAux fuel h msg t).length = 8 := by
  induction fuel with
  | zero => intro h msg t; simp [blake2sAux, blakeCompress_length]
  | succ n ih =>
    intro h msg t
    by_cases hle : msg.length ≤ 64
    · simp [blake2sAux, hle, blakeCompress_length]
    · simp [blake2sAux, hle, ih]

theorem wordsToBytes_length (ws : List Nat) : (wordsToBytes ws).length = 4 * ws.length := by
  induction ws with
  | nil => rfl
  | cons w t ih => simp [wordsToBytes] at ih ⊢; omega

theorem digestOf_length (d : Bytes) : (digestOf d).length = 32 := by
  simp [digestOf, blake2s256, wordsToBytes_length, blake2sAux_length]

theorem placeholder_length : placeholder.length = 32 := by
  simp [placeholder]

theorem bitsOf_length (h : HashValue) : (bitsOf h).length = 256 := by
  simp [bitsOf]

theorem takeWhile_zip_self {α : Type} [BEq α] [LawfulBEq α] (l : List α) :
    ((l.zip l).takeWhile fun p => p.1 == p.2) = l.zip l := by
  induction l with
  | nil => rfl
  | cons a t ih => simp [List.takeWhile_cons, ih]

theorem commonPrefixBitsLen_self (h : HashValue) : commonPrefixBitsLen h h = 256 := by
  simp [commonPrefixBitsLen, takeWhile_zip_self, List.length_zip, bitsOf_length]

/-- Decoding an encoding recovers the node (for 32-byte digests). -/
theorem decode_encode (n : Node) (hwf : nodeWF n = true) :
    Node.decode (Node.encode n).2 = .ok n := by
  cases n with
  | leaf k v =>
    simp only [nodeWF, decide_eq_true_eq] at hwf
    obtain ⟨hk, hv⟩ := hwf
    simp [Node.encode, Node.decode, List.length_append, hk, hv,
      List.take_left' hk, List.drop_left' hk]
  | internal l r =>
    simp only [nodeWF, decide_eq_true_eq] at hwf
    obtain ⟨hl, hr⟩ := hwf
    simp [Node.encode, Node.decode, List.length_append, hl, hr,
      List.take_left' hl, List.drop_left' hl]

/-! ## Store-component lemmas -/

theorem setNode_values (s : MemoryStore) (k : HashValue) (v : Bytes) :
    (s.setNode k v).values = s.values := rfl

theorem deleteNode_values (s : MemoryStore) (k : HashValue) :
    (s.deleteNode k).values = s.values := rfl

theorem setValue_nodes (s : MemoryStore) (k : HashValue) (v : Bytes) :
    (s.setValue k v).nodes = s.nodes := rfl

theorem deleteValue_nodes (s : MemoryStore) (k : HashValue) :
    (s.deleteValue k).nodes = s.nodes := rfl

theorem foldl_deleteNode_values (l : List HashValue) :
    ∀ s : MemoryStore, (l.foldl (fun s k => s.deleteNode k) s).values = s.values := by
  induction l with
  | nil => intro s; rfl
  | cons a t ih => intro s; rw [List.foldl_cons]; exact ih _

theorem bubbleLoop_values (path : HashValue) (cpc : Nat) (sn : List HashValue)
    (fuel : Nat) : ∀ (i : Nat) (st : MemoryStore) (nh : HashValue),
    (bubbleLoop path cpc sn fuel i st nh).2.values = st.values := by
  induction fuel with
  | zero => intro i st nh; rfl
  | succ n ih =>
    intro i st nh
    simp only [bubbleLoop]
    split
    · exact ih _ _ _
    · split
      · rfl
      · rw [ih]; rfl

/-- With an empty sidenode list and `common_prefix_count = 256` every level of
the bubbling loop is skipped. -/
theorem bubbleLoop_nil (path : HashValue) (fuel : Nat) :
    ∀ (i : Nat) (st : MemoryStore) (nh : HashValue),
    bubbleLoop path 256 [] fuel i st nh = (.ok nh, st) := by
  induction fuel with
  | zero => intro i st nh; rfl
  | succ n ih => intro i st nh; simpa [bubbleLoop] using ih (i + 1) st nh

theorem getSidenodes_of_placeholder (st : MemoryStore) (path root : HashValue)
    (h : isPlaceholder root = true) :
    getSidenodes st path root = .ok ⟨[], [root], none, none⟩ := by
  simp [getSidenodes, h]

/-! ## Walk lemmas -/

theorem chainEnd_nil (p0 : HashValue) : chainEnd p0 [] = p0 := rfl

theorem chainEnd_append (p0 : HashValue) (pairs : List (HashValue × HashValue))
    (s p : HashValue) : chainEnd p0 (pairs ++ [(s, p)]) = p := by
  simp [chainEnd, List.getLast?_concat]

theorem chainEnd_cons (p0 s p : HashValue) (rest : List (HashValue × HashValue)) :
    chainEnd p0 ((s, p) :: rest) = chainEnd p rest := by
  cases rest with
  | nil => rfl
  | cons a t => simp [chainEnd, List.getLast?]

theorem descentChain_append (st : MemoryStore) (path : HashValue) :
    ∀ (pairs : List (HashValue × HashValue)) (d : Nat) (p0 s2 p2 : HashValue),
    descentChain st path d p0 pairs →
    descentLink st path (d + pairs.length) (chainEnd p0 pairs) s2 p2 →
    descentChain st path d p0 (pairs ++ [(s2, p2)]) := by
  intro pairs
  induction pairs with
  | nil =>
    intro d p0 s2 p2 _ hlink
    exact ⟨by simpa using hlink, trivial⟩
  | cons hd tl ih =>
    intro d p0 s2 p2 hchain hlink
    obtain ⟨s, p⟩ := hd
    obtain ⟨h1, h2⟩ := hchain
    refine ⟨h1, ih (d + 1) p s2 p2 h2 ?_⟩
    rw [chainEnd_cons] at hlink
    have : d + 1 + tl.length = d + (tl.length + 1) := by omega
    rw [this]
    simpa using hlink

/-- The walk invariant: if the accumulators form a store-backed descent whose
deepest node decodes to the walk's current node, every successful exit yields
arrays whose reversal is a descent from the original head, with the head (the
root) as last pathnode. -/
theorem walk_spec (st : MemoryStore) (path : HashValue) :
    ∀ (fuel i : Nat) (sacc : List HashValue) (p0 : HashValue) (pts : List HashValue)
      (node : Node) (w : Walked),
    walkForSubnodes st path fuel i sacc (p0 :: pts) node = .ok w →
    i = sacc.length →
    pts.length = sacc.length →
    descentChain st path 0 p0 (sacc.zip pts) →
    (∃ raw, st.getNode (chainEnd p0 (sacc.zip pts)) = some raw ∧
      Node.decode raw = .ok node) →
    w.pathnodes.getLast? = some p0 ∧ w.pathnodes.length = w.sidenodes.length + 1 ∧
    isDescent st path 0 w.pathnodes.reverse w.sidenodes.reverse := by
  intro fuel
  induction fuel with
  | zero =>
    intro i sacc p0 pts node w hok hi hlen hchain hend
    simp only [walkForSubnodes, Except.ok.injEq] at hok
    subst hok
    refine ⟨by simp, by simp [hlen], ?_⟩
    simp only [List.reverse_reverse]
    exact ⟨by omega, hchain⟩
  | succ fuel ih =>
    intro i sacc p0 pts node w hok hi hlen hchain hend
    match node with
    | .leaf _ _ => exact absurd hok (by simp [walkForSubnodes])
    | .internal left right =>
      simp only [walkForSubnodes] at hok
      set sel := if hasBitSet path i then (left, right) else (right, left) with hsel
      have hlink : descentLink st path i (chainEnd p0 (sacc.zip pts)) sel.1 sel.2 := by
        obtain ⟨raw, hraw, hdec⟩ := hend
        refine ⟨raw, left, right, hraw, hdec, ?_⟩
        by_cases hb : hasBitSet path i <;> simp [hsel, hb]
      have hzip : (sacc ++ [sel.1]).zip (pts ++ [sel.2]) =
          sacc.zip pts ++ [(sel.1, sel.2)] := List.zip_append hlen.symm
      have hchain' : descentChain st path 0 p0 ((sacc ++ [sel.1]).zip (pts ++ [sel.2])) := by
        rw [hzip]
        refine descentChain_append st path _ 0 p0 sel.1 sel.2 hchain ?_
        have h0 : (0 : Nat) + (sacc.zip pts).length = i := by
          rw [List.length_zip, hlen, hi]; omega
        rwa [h0]
      by_cases hph : isPlaceholder sel.2
      · rw [if_pos hph] at hok
        simp only [Except.ok.injEq] at hok
        subst hok
        refine ⟨?_, by simp [hlen], ?_⟩
        · show (((p0 :: pts) ++ [sel.2]).reverse).getLast? = some p0
          rw [List.getLast?_reverse]; rfl
        · simp only [List.reverse_reverse]
          exact ⟨by simp [hlen], by simpa using hchain'⟩
      · rw [if_neg hph] at hok
        split at hok
        · exact absurd hok (by simp)
        · rename_i raw hget
          split at hok
          · exact absurd hok (by simp)
          · rename_i node' hdec
            have hend' : ∃ raw2,
                st.getNode (chainEnd p0 ((sacc ++ [sel.1]).zip (pts ++ [sel.2]))) = some raw2 ∧
                Node.decode raw2 = .ok node' := by
              rw [hzip, chainEnd_append]
              exact ⟨raw, hget, hdec⟩
            by_cases hleaf : node'.isLeaf
            · rw [if_pos hleaf] at hok
              simp only [Except.ok.injEq] at hok
              subst hok
              refine ⟨?_, by simp [hlen], ?_⟩
              · show (((p0 :: pts) ++ [sel.2]).reverse).getLast? = some p0
                rw [List.getLast?_reverse]; rfl
              · simp only [List.reverse_reverse]
                exact ⟨by simp [hlen], by simpa using hchain'⟩
            · rw [if_neg hleaf] at hok
              have hcons : (p0 :: pts) ++ [sel.2] = p0 :: (pts ++ [sel.2]) := rfl
              rw [hcons] at hok
              exact ih (i + 1) (sacc ++ [sel.1]) p0 (pts ++ [sel.2]) node' w hok
                (by simp [hi]) (by simp [hlen]) hchain' hend'

/-- Every successful `get_sidenodes` ends its pathnode list with the root it
started from, returns one more pathnode than sidenodes, and both lists,
reversed, form a store-backed descent from the root: index 0 of the returned
arrays is the deepest entry (closest to the leaf), the last the shallowest. -/
theorem getSidenodes_spec (st : MemoryStore) (path root : HashValue) (w : Walked)
    (hw : getSidenodes st path root = .ok w) :
    w.pathnodes.getLast? = some root ∧ w.pathnodes.length = w.sidenodes.length + 1 ∧
    isDescent st path 0 w.pathnodes.reverse w.sidenodes.reverse := by
  simp only [getSidenodes] at hw
  by_cases hph : isPlaceholder root
  · rw [if_pos hph] at hw
    simp only [Except.ok.injEq] at hw
    subst hw
    exact ⟨rfl, rfl, ⟨rfl, trivial⟩⟩
  · rw [if_neg hph] at hw
    split at hw
    · exact absurd hw (by simp)
    · rename_i raw hget
      split at hw
      · exact absurd hw (by simp)
      · rename_i node hdec
        by_cases hleaf : node.isLeaf
        · rw [if_pos hleaf] at hw
          simp only [Except.ok.injEq] at hw
          subst hw
          exact ⟨rfl, rfl, ⟨rfl, trivial⟩⟩
        · rw [if_neg hleaf] at hw
          exact walk_spec st path 256 0 [] root [] node w hw rfl rfl trivial
            ⟨raw, hget, hdec⟩

theorem getSidenodes_pathnodes_head (st : MemoryStore) (path root : HashValue)
    (w : Walked) (hw : getSidenodes st path root = .ok w) :
    ∃ p0, w.pathnodes.head? = some p0 := by
  obtain ⟨-, hlen, -⟩ := getSidenodes_spec st path root w hw
  cases hpn : w.pathnodes with
  | nil => rw [hpn] at hlen; simp at hlen
  | cons a t => exact ⟨a, rfl⟩

/-- If the terminal pathnode is not the placeholder, neither was the root. -/
theorem getSidenodes_root_not_placeholder (st : MemoryStore) (path root : HashValue)
    (w : Walked) (hw : getSidenodes st path root = .ok w)
    (p0 : HashValue) (hp0 : w.pathnodes.head? = some p0)
    (hnph : isPlaceholder p0 = false) : isPlaceholder root = false := by
  by_cases hph : isPlaceholder root
  · rw [getSidenodes_of_placeholder st path root hph] at hw
    simp only [Except.ok.injEq] at hw
    subst hw
    simp only [List.head?_cons, Option.some.injEq] at hp0
    subst hp0
    rw [hph] at hnph
    exact absurd hnph (by simp)
  · simpa using hph

/-- Characterisation of a successful `update_with_sidenodes`: either the
normal path ran (the returned root is the new leaf's address — the shadowed
`current_hash` — and the value store now maps the path to the value), or the
idempotent early exit fired (the walk's terminal node was a leaf for the same
key hash and value hash; the tree's root is returned and the value store is
untouched). -/
theorem updateWithSidenodes_ok (selfRoot : HashValue) (st : MemoryStore)
    (path : HashValue) (value : Bytes) (sidenodes pathnodes : List HashValue)
    (oldLeafNode : Option Node) (r : HashValue) (st' : MemoryStore)
    (hok : updateWithSidenodes selfRoot st path value sidenodes pathnodes oldLeafNode
      = (.ok r, st')) :
    (r = (Node.leaf path (digestOf value)).encode.1 ∧
      slookup path st'.values = some value) ∨
    (r = selfRoot ∧ st'.values = st.values ∧
      ∃ p0 ap, pathnodes.head? = some p0 ∧ isPlaceholder p0 = false ∧
        oldLeafNode = some (.leaf ap (digestOf value)) ∧
        commonPrefixBitsLen path ap = 256) := by
  simp only [updateWithSidenodes] at hok
  split at hok
  · simp at hok
  · rename_i pathNodeRoot hhead
    split at hok
    · simp at hok
    · rename_i pr ovh cpc heq
      split at hok
      · -- splitter path: common_prefix_count ≠ 256
        split at hok
        · simp at hok
        · rename_i res nh st4 hbub
          simp only [Prod.mk.injEq, Except.ok.injEq] at hok
          obtain ⟨hr, hst⟩ := hok
          left
          refine ⟨hr.symm, ?_⟩
          rw [← hst]
          exact slookup_sinsert_self _ _ _
      · -- common_prefix_count = 256
        rename_i hcpc
        split at hok
        · -- old value hash present
          rename_i uovh
          split at hok
          · -- idempotent early exit
            rename_i hvh
            simp only [Prod.mk.injEq, Except.ok.injEq] at hok
            obtain ⟨hr, hst⟩ := hok
            right
            refine ⟨hr.symm, by rw [← hst]; rfl, ?_⟩
            -- analyse how (ovh, cpc) was produced
            by_cases hph : isPlaceholder pathNodeRoot
            · rw [if_pos hph] at heq
              simp only [Except.ok.injEq, Prod.mk.injEq] at heq
              exact absurd heq.1.symm (by simp)
            · rw [if_neg hph] at heq
              cases oldLeafNode with
              | none => simp at heq
              | some n =>
                cases n with
                | internal a b => simp at heq
                | leaf ap avh =>
                  simp only [Except.ok.injEq, Prod.mk.injEq, Option.some.injEq] at heq
                  obtain ⟨hovh, hcpl⟩ := heq
                  have hc : cpc = 256 := by omega
                  refine ⟨pathNodeRoot, ap, hhead, by simpa using hph, ?_, by omega⟩
                  rw [hovh, hvh]
          · -- replace at same depth
            split at hok
            · simp at hok
            · rename_i res nh st4 hbub
              simp only [Prod.mk.injEq, Except.ok.injEq] at hok
              obtain ⟨hr, hst⟩ := hok
              left
              refine ⟨hr.symm, ?_⟩
              rw [← hst]
              exact slookup_sinsert_self _ _ _
        · -- fresh key below an empty slot
          split at hok
          · simp at hok
          · rename_i res nh st4 hbub
            simp only [Prod.mk.injEq, Except.ok.injEq] at hok
            obtain ⟨hr, hst⟩ := hok
            left
            refine ⟨hr.symm, ?_⟩
            rw [← hst]
            exact slookup_sinsert_self _ _ _

/-- A delete request (`update` with the empty value) for an absent key is a
complete no-op: `delete_for_sidenode` raises its error before any store
mutation, `update_for_root` swallows it and returns the passed root, and the
value-store deletion only runs on success. -/
theorem noopDelete (t : SparseMerkleTree) (key : Bytes) (w : Walked)
    (hw : getSidenodes t.store (digestOf key) t.root = .ok w)
    (habs : keyAbsent w (digestOf key) = true) :
    t.update key [] = (.ok (), t) := by
  obtain ⟨p0, hp0⟩ := getSidenodes_pathnodes_head _ _ _ _ hw
  simp only [keyAbsent, hp0] at habs
  have hdel : ∃ e, deleteForSidenode t.store (digestOf key) w.sidenodes w.pathnodes
      w.leafNode = (.error e, t.store) ∧ e ≠ "panic: pathnode should have root" := by
    simp only [deleteForSidenode, hp0]
    by_cases hph : isPlaceholder p0
    · rw [if_pos hph]
      exact ⟨_, rfl, by decide⟩
    · rw [if_neg hph] at habs ⊢
      rcases holn : w.leafNode with _ | n
      · exact ⟨_, rfl, by decide⟩
      · rcases n with ⟨a, b⟩ | ⟨ap, avh⟩
        · exact ⟨_, rfl, by decide⟩
        · rw [holn] at habs
          simp only at habs
          have hne2 : ¬(ap = digestOf key) := by simpa using habs
          exact ⟨"Key is already empty", by simp [hne2], by decide⟩
  obtain ⟨e, hdel, hne⟩ := hdel
  have hur : updateForRoot t.root t.store key [] t.root = (.ok t.root, t.store) := by
    simp [updateForRoot, hw, hdel, hne]
  simp [SparseMerkleTree.update, hur]

theorem isPlaceholder_false_of_ne (h : HashValue) (hne : h ≠ placeholder) :
    isPlaceholder h = false := by
  simp [isPlaceholder, hne]

theorem ne_placeholder_of_isPlaceholder_false (h : HashValue)
    (hph : isPlaceholder h = false) : h ≠ placeholder := by
  simpa [isPlaceholder] using hph

/-- A walk whose root resolves to a stored leaf stops at depth zero. -/
theorem getSidenodes_leaf_root (st : MemoryStore) (path root k v : HashValue)
    (hph : isPlaceholder root = false)
    (hget : st.getNode root = some (Node.leaf k v).encode.2)
    (hk : k.length = 32) (hv : v.length = 32) :
    getSidenodes st path root = .ok ⟨[], [root], some (Node.leaf k v), none⟩ := by
  have hdec : Node.decode (Node.leaf k v).encode.2 = .ok (Node.leaf k v) :=
    decode_encode _ (by simp [nodeWF, hk, hv])
  simp [getSidenodes, hph, hget, hdec, Node.isLeaf]

/-- When the walk stopped at a leaf that stores the same key hash and the same
value hash, `update_with_sidenodes` takes the idempotent early exit: the
tree's current root is returned and only the (re-)insertion of the identical
leaf node has touched the store. -/
theorem updateWithSidenodes_same_leaf (selfRoot : HashValue) (st : MemoryStore)
    (path : HashValue) (value : Bytes) (p0 : HashValue)
    (hph : isPlaceholder p0 = false) :
    updateWithSidenodes selfRoot st path value [] [p0]
      (some (Node.leaf path (digestOf value))) =
    (.ok selfRoot,
      st.setNode (Node.leaf path (digestOf value)).encode.1
        (Node.leaf path (digestOf value)).encode.2) := by
  simp [updateWithSidenodes, hph, commonPrefixBitsLen_self]

/-- Inserting over a placeholder terminal with no sidenodes: the new leaf is
stored, every bubbling level is skipped, and the leaf's address is returned
(the outer `current_hash`). -/
theorem updateWithSidenodes_into_empty (selfRoot : HashValue) (st : MemoryStore)
    (path : HashValue) (value : Bytes) (p0 : HashValue)
    (hph : isPlaceholder p0 = true) :
    updateWithSidenodes selfRoot st path value [] [p0] none =
    (.ok (Node.leaf path (digestOf value)).encode.1,
      (st.setNode (Node.leaf path (digestOf value)).encode.1
        (Node.leaf path (digestOf value)).encode.2).setValue path value) := by
  simp [updateWithSidenodes, hph, bubbleLoop_nil]

/-! ## Claim theorems -/

/-- C9: for every 32-byte digest and every index `0 ≤ i < 256`, bit `i` is bit
`7 - (i % 8)` of byte `i / 8` (MSB-first within each byte); in particular bit
0 is the most significant bit of byte 0 and bit 255 the least significant bit
of byte 31. -/
theorem smt_c9_bit_accessor (h : HashValue) (hlen : h.length = 32) (i : Nat)
    (hi : i < 256) :
    hasBitSet h i = (h.getD (i / 8) 0).testBit (7 - i % 8) ∧
    hasBitSet h 0 = (h.getD 0 0).testBit 7 ∧
    hasBitSet h 255 = (h.getD 31 0).testBit 0 := by
  refine ⟨?_, ?_, ?_⟩ <;> simp [hasBitSet, Nat.testBit, Nat.and_comm]

/-- C9 witness at a concrete digest and index. -/
theorem smt_c9_bit_accessor_witness :
    (digestOf [97]).length = 32 ∧ (5 : Nat) < 256 ∧
    (hasBitSet (digestOf [97]) 5 = ((digestOf [97]).getD 0 0).testBit 2 ∧
      hasBitSet (digestOf [97]) 0 = ((digestOf [97]).getD 0 0).testBit 7 ∧
      hasBitSet (digestOf [97]) 255 = ((digestOf [97]).getD 31 0).testBit 0) :=
  ⟨by decide, by decide, smt_c9_bit_accessor (digestOf [97]) (by decide) 5 (by decide)⟩

/-- C7: decoding the 65-byte encoding of any node (with 32-byte digests)
recovers the node, the encoding's address is the digest of its bytes, and
decoding fails exactly when the length is not 65 or the tag is neither 0
nor 1. -/
theorem smt_c7_codec_roundtrip :
    (∀ n : Node, nodeWF n = true →
      Node.decode (Node.encode n).2 = .ok n ∧
      (Node.encode n).1 = digestOf (Node.encode n).2) ∧
    (∀ raw : Bytes, (∃ m, Node.decode raw = .ok m) ↔
      (raw.length = 65 ∧ (raw.getD 0 0 = 0 ∨ raw.getD 0 0 = 1))) := by
  constructor
  · intro n hwf
    refine ⟨decode_encode n hwf, ?_⟩
    cases n <;> rfl
  · intro raw
    constructor
    · rintro ⟨m, hm⟩
      simp only [Node.decode] at hm
      by_cases h65 : raw.length = 65
      · refine ⟨h65, ?_⟩
        rw [if_pos h65] at hm
        by_cases h0 : raw.getD 0 0 = 0
        · exact Or.inl h0
        · rw [if_neg h0] at hm
          by_cases h1 : raw.getD 0 0 = 1
          · exact Or.inr h1
          · rw [if_neg h1] at hm; simp at hm
      · rw [if_neg h65] at hm; simp at hm
    · rintro ⟨h65, h01⟩
      simp only [Node.decode, if_pos h65]
      by_cases h0 : raw.getD 0 0 = 0
      · rw [if_pos h0]; exact ⟨_, rfl⟩
      · rcases h01 with h0' | h1
        · exact absurd h0' h0
        · rw [if_neg h0, if_pos h1]; exact ⟨_, rfl⟩

/-- C7 witness at a concrete node and a concrete failing byte string. -/
theorem smt_c7_codec_roundtrip_witness :
    (nodeWF (Node.leaf (digestOf [97]) (digestOf [98])) = true ∧
      (Node.decode (Node.encode (Node.leaf (digestOf [97]) (digestOf [98]))).2 =
        .ok (Node.leaf (digestOf [97]) (digestOf [98])) ∧
      (Node.encode (Node.leaf (digestOf [97]) (digestOf [98]))).1 =
        digestOf (Node.encode (Node.leaf (digestOf [97]) (digestOf [98]))).2)) ∧
    ((∃ m, Node.decode (List.replicate 65 2) = .ok m) ↔
      ((List.replicate 65 2 : Bytes).length = 65 ∧
        ((List.replicate 65 2 : Bytes).getD 0 0 = 0 ∨
          (List.replicate 65 2 : Bytes).getD 0 0 = 1))) :=
  ⟨⟨by decide, smt_c7_codec_roundtrip.1 _ (by decide)⟩,
    smt_c7_codec_roundtrip.2 (List.replicate 65 2)⟩

/-- C8: for every successful walk, the returned arrays are ordered with index
0 closest to the leaf and the last index closest to the root (their reversals
form a store-backed root-down descent), and the last pathnode is always the
root the walk started from. -/
theorem smt_c8_walk_ordering (st : MemoryStore) (path root : HashValue)
    (w : Walked) (hw : getSidenodes st path root = .ok w) :
    w.pathnodes.getLast? = some root ∧
    w.pathnodes.length = w.sidenodes.length + 1 ∧
    isDescent st path 0 w.pathnodes.reverse w.sidenodes.reverse :=
  getSidenodes_spec st path root w hw

/-- C6: a delete request (`update` with the empty value) for an absent key
succeeds and returns the root unchanged; instantiated on the empty tree by
the witness, where the root stays the placeholder. -/
theorem smt_c6_noop_delete (t : SparseMerkleTree) (key : Bytes) (w : Walked)
    (hw : getSidenodes t.store (digestOf key) t.root = .ok w)
    (habs : keyAbsent w (digestOf key) = true) :
    (t.update key []).1 = .ok () ∧ (t.update key []).2.root = t.root := by
  rw [noopDelete t key w hw habs]
  exact ⟨rfl, rfl⟩

/-- C6 witness: `update("x", "")` on the empty tree succeeds and leaves the
placeholder root. -/
theorem smt_c6_noop_delete_witness :
    getSidenodes (SparseMerkleTree.new none).store (digestOf [120])
      (SparseMerkleTree.new none).root = .ok ⟨[], [placeholder], none, none⟩ ∧
    keyAbsent ⟨[], [placeholder], none, none⟩ (digestOf [120]) = true ∧
    (((SparseMerkleTree.new none).update [120] []).1 = .ok () ∧
      ((SparseMerkleTree.new none).update [120] []).2.root =
        (SparseMerkleTree.new none).root) :=
  ⟨by decide, by decide,
    smt_c6_noop_delete (SparseMerkleTree.new none) [120]
      ⟨[], [placeholder], none, none⟩ (by decide) (by decide)⟩

/-- C10: when the delete path finds the key absent (terminal pathnode is the
placeholder, no terminal leaf, or a terminal leaf for a different key hash),
the whole tree — node store and value store included — is left unchanged: the
error precedes every store deletion and the value deletion runs only on
success. -/
theorem smt_c10_absent_delete_keeps_stores (t : SparseMerkleTree) (key : Bytes)
    (w : Walked) (hw : getSidenodes t.store (digestOf key) t.root = .ok w)
    (habs : keyAbsent w (digestOf key) = true) :
    t.update key [] = (.ok (), t) :=
  noopDelete t key w hw habs

/-- C10 witness: deleting the absent key `"b"` from a tree holding only `"a"`
returns the identical tree (root, node store and value store). -/
theorem smt_c10_absent_delete_keeps_stores_witness :
    getSidenodes exTree1.store (digestOf [98]) exTree1.root =
      .ok ⟨[], [exTree1.root], some wLeafA, none⟩ ∧
    keyAbsent ⟨[], [exTree1.root], some wLeafA, none⟩ (digestOf [98]) = true ∧
    exTree1.update [98] [] = (.ok (), exTree1) :=
  ⟨by decide, by decide,
    smt_c10_absent_delete_keeps_stores exTree1 [98]
      ⟨[], [exTree1.root], some wLeafA, none⟩ (by decide) (by decide)⟩

/-- C4: after a successful `update(k, v)` with non-empty `v`, `get(k)`
returns `v` and the root is not the placeholder digest. The hypotheses record
that the new leaf's Blake2s address is not the all-zero digest (true except
for an astronomically unlikely hash coincidence) and that, if the update hit
the idempotent early exit, the value store already held `v` (invariant I4 of
reachable states). -/
theorem smt_c4_insert_roundtrip (t : SparseMerkleTree) (k v : Bytes)
    (hv : v ≠ []) (t' : SparseMerkleTree) (hok : t.update k v = (.ok (), t'))
    (hlh : (Node.leaf (digestOf k) (digestOf v)).encode.1 ≠ placeholder)
    (hsame : updateHitsSameLeaf t k v = true → t.get k = some v) :
    t'.get k = some v ∧ t'.root ≠ placeholder := by
  simp only [SparseMerkleTree.update] at hok
  rcases hur0 : updateForRoot t.root t.store k v t.root with ⟨res, st0⟩
  rw [hur0] at hok
  cases res with
  | error e => simp at hok
  | ok r =>
    simp only [Prod.mk.injEq] at hok
    obtain ⟨-, ht'⟩ := hok
    subst ht'
    simp only [updateForRoot] at hur0
    split at hur0
    · simp at hur0
    · rename_i w hw
      rw [if_neg hv] at hur0
      rcases updateWithSidenodes_ok _ _ _ _ _ _ _ _ _ hur0 with
        ⟨hr, hvl⟩ | ⟨hr, hvals, p0, ap, hhead, hp0f, holn, hcpl⟩
      · constructor
        · simp [SparseMerkleTree.get, MemoryStore.getValue, hr,
            isPlaceholder_false_of_ne _ hlh, hvl]
        · show r ≠ placeholder
          rw [hr]; exact hlh
      · have hrootf : isPlaceholder t.root = false :=
          getSidenodes_root_not_placeholder _ _ _ _ hw p0 hhead hp0f
        have hult : updateHitsSameLeaf t k v = true := by
          simp [updateHitsSameLeaf, hw, hhead, holn, hp0f, hcpl]
        have hget := hsame hult
        constructor
        · simp only [SparseMerkleTree.get, MemoryStore.getValue] at hget ⊢
          rw [hr, hvals]
          exact hget
        · show r ≠ placeholder
          rw [hr]
          exact ne_placeholder_of_isPlaceholder_false _ hrootf

/-- C4 witness: inserting `("a", "a1")` into the empty tree. -/
theorem smt_c4_insert_roundtrip_witness :
    ([97, 49] : Bytes) ≠ [] ∧
    exTree0.update [97] [97, 49] = (.ok (), exTree1) ∧
    (Node.leaf (digestOf [97]) (digestOf [97, 49])).encode.1 ≠ placeholder ∧
    (exTree1.get [97] = some [97, 49] ∧ exTree1.root ≠ placeholder) :=
  ⟨by decide, by decide, by decide,
    smt_c4_insert_roundtrip exTree0 [97] [97, 49] (by decide) exTree1 (by decide)
      (by decide) (by decide)⟩

/-- C5: a second `update(k, v)` with the same pair returns the same root and
leaves both stores (as maps) exactly as the first call left them; when the
walk ends at the stored leaf for the same key hash and value hash, the
current root is returned unchanged through the idempotent early exit. The
hypotheses record the state the first successful call established: the root
is the new leaf's address, the node store holds that leaf, and the value
store maps the key hash to `v`. -/
theorem smt_c5_idempotent_update (t t1 : SparseMerkleTree) (key value : Bytes)
    (hv : value ≠ []) (hfirst : t.update key value = (.ok (), t1))
    (hroot : t1.root = (Node.leaf (digestOf key) (digestOf value)).encode.1)
    (hnode : t1.store.getNode (Node.leaf (digestOf key) (digestOf value)).encode.1 =
      some (Node.leaf (digestOf key) (digestOf value)).encode.2)
    (hval : t1.store.getValue (digestOf key) = some value) :
    (t1.update key value).1 = .ok () ∧ (t1.update key value).2.root = t1.root ∧
    (∀ x, (t1.update key value).2.store.getNode x = t1.store.getNode x) ∧
    (∀ x, (t1.update key value).2.store.getValue x = t1.store.getValue x) := by
  by_cases hph : isPlaceholder (Node.leaf (digestOf key) (digestOf value)).encode.1
  · -- degenerate hash: the leaf's address is the placeholder, so the walk
    -- stops at once; the update still restores the identical leaf and value
    have hw : getSidenodes t1.store (digestOf key) t1.root =
        .ok ⟨[], [t1.root], none, none⟩ := by
      rw [hroot]
      exact getSidenodes_of_placeholder _ _ _ (by rw [← hroot] at hph ⊢; exact hph)
    have hux := updateWithSidenodes_into_empty t1.root t1.store (digestOf key) value
      t1.root (by rw [hroot]; exact hph)
    have hur : updateForRoot t1.root t1.store key value t1.root =
        (.ok (Node.leaf (digestOf key) (digestOf value)).encode.1,
          (t1.store.setNode (Node.leaf (digestOf key) (digestOf value)).encode.1
            (Node.leaf (digestOf key) (digestOf value)).encode.2).setValue
            (digestOf key) value) := by
      simp only [updateForRoot, hw, if_neg hv]
      exact hux
    have hupd : t1.update key value =
        (.ok (), ⟨(Node.leaf (digestOf key) (digestOf value)).encode.1,
          (t1.store.setNode (Node.leaf (digestOf key) (digestOf value)).encode.1
            (Node.leaf (digestOf key) (digestOf value)).encode.2).setValue
            (digestOf key) value⟩) := by
      simp [SparseMerkleTree.update, hur]
    rw [hupd]
    refine ⟨rfl, hroot.symm, ?_, ?_⟩
    · intro x
      show slookup x (sinsert _ _ t1.store.nodes) = slookup x t1.store.nodes
      exact slookup_sinsert_of_present _ _ _ hnode x
    · intro x
      show slookup x (sinsert _ _ t1.store.values) = slookup x t1.store.values
      exact slookup_sinsert_of_present _ _ _ hval x
  · -- normal case: the walk finds the stored leaf and the update takes the
    -- idempotent early exit
    have hphf : isPlaceholder (Node.leaf (digestOf key) (digestOf value)).encode.1
        = false := by simpa using hph
    have hw : getSidenodes t1.store (digestOf key) t1.root =
        .ok ⟨[], [t1.root], some (Node.leaf (digestOf key) (digestOf value)), none⟩ := by
      rw [hroot]
      exact getSidenodes_leaf_root _ _ _ _ _ hphf hnode
        (digestOf_length _) (digestOf_length _)
    have hux := updateWithSidenodes_same_leaf t1.root t1.store (digestOf key) value
      t1.root (by rw [hroot]; exact hphf)
    have hur : updateForRoot t1.root t1.store key value t1.root =
        (.ok t1.root,
          t1.store.setNode (Node.leaf (digestOf key) (digestOf value)).encode.1
            (Node.leaf (digestOf key) (digestOf value)).encode.2) := by
      simp only [updateForRoot, hw, if_neg hv]
      exact hux
    have hupd : t1.update key value =
        (.ok (), ⟨t1.root,
          t1.store.setNode (Node.leaf (digestOf key) (digestOf value)).encode.1
            (Node.leaf (digestOf key) (digestOf value)).encode.2⟩) := by
      simp [SparseMerkleTree.update, hur]
    rw [hupd]
    refine ⟨rfl, rfl, ?_, ?_⟩
    · intro x
      show slookup x (sinsert _ _ t1.store.nodes) = slookup x t1.store.nodes
      exact slookup_sinsert_of_present _ _ _ hnode x
    · intro x
      exact rfl

/-- C5 witness: repeating `update("a", "a1")` on the one-key tree. -/
theorem smt_c5_idempotent_update_witness :
    ([97, 49] : Bytes) ≠ [] ∧
    exTree0.update [97] [97, 49] = (.ok (), exTree1) ∧
    ((exTree1.update [97] [97, 49]).1 = .ok () ∧
      (exTree1.update [97] [97, 49]).2.root = exTree1.root ∧
      (∀ x, (exTree1.update [97] [97, 49]).2.store.getNode x =
        exTree1.store.getNode x) ∧
      (∀ x, (exTree1.update [97] [97, 49]).2.store.getValue x =
        exTree1.store.getValue x)) :=
  ⟨by decide, by decide,
    smt_c5_idempotent_update exTree0 exTree1 [97] [97, 49] (by decide) (by decide)
      (by decide) (by decide) (by decide)⟩

/-- C1 (the code violates the claim): starting from the tree holding only
`("a", "a1")`, inserting `("b", "b1")` and then deleting `"b"` with
`update("b", "")` does not return the root to its pre-insert digest:
`delete_for_sidenode` unconditionally returns the placeholder (the collapse
climb is left as a commented-out TODO), while the pre-insert root is not the
placeholder. -/
theorem smt_c1_delete_not_roundtrip :
    (exTree1.update [98] [98, 49]).1 = .ok () ∧
    (exTree2.update [98] []).1 = .ok () ∧
    ((exTree2.update [98] []).2).root = placeholder ∧
    exTree1.root ≠ placeholder ∧
    ((exTree2.update [98] []).2).root ≠ exTree1.root := by
  refine ⟨by decide, by decide, by decide, by decide, by decide⟩

/-- C2 (the code violates the claim): inserting the pairs `("a", "a1")` and
`("b", "b1")` in the two possible orders yields different final roots,
because `update_with_sidenodes` returns the outer `current_hash` binding (the
new leaf's address) instead of the bubbled `next_hash`, so the root after any
insertion is just the hash of the last-inserted leaf. -/
theorem smt_c2_order_dependence :
    (exTree0.update [97] [97, 49]).1 = .ok () ∧
    (exTree0.update [98] [98, 49]).1 = .ok () ∧
    (exTree1.update [98] [98, 49]).1 = .ok () ∧
    (exTree1b.update [97] [97, 49]).1 = .ok () ∧
    exTree2.root ≠ ((exTree1b.update [97] [97, 49]).2).root := by
  refine ⟨by decide, by decide, by decide, by decide, by decide⟩

/-- C3 (the code violates the claim): with `("a", "a1")` and `("b", "b1")`
stored, the delete request `update("b", "")` changes `get("a")` from
`some "a1"` to `none`, because the delete sets the root to the placeholder and
`get` short-circuits to `none` on a placeholder root — even though the two
keys have different hashes. -/
theorem smt_c3_update_disturbs_other_key :
    digestOf [97] ≠ digestOf [98] ∧
    exTree2.get [97] = some [97, 49] ∧
    (exTree2.update [98] []).1 = .ok () ∧
    ((exTree2.update [98] []).2).get [97] = none := by
  refine ⟨by decide, by decide, by decide, by decide⟩

/-- C8 witness: a one-step walk over a hand-assembled store (Internal root,
leaf on the left, empty right subtree). -/
theorem smt_c8_walk_ordering_witness :
    getSidenodes wStore (digestOf [97]) wRoot.encode.1 =
      .ok ⟨[placeholder], [wLeafA.encode.1, wRoot.encode.1], some wLeafA, none⟩ ∧
    ((⟨[placeholder], [wLeafA.encode.1, wRoot.encode.1], some wLeafA, none⟩ :
        Walked).pathnodes.getLast? = some wRoot.encode.1 ∧
      (⟨[placeholder], [wLeafA.encode.1, wRoot.encode.1], some wLeafA, none⟩ :
        Walked).pathnodes.length =
        (⟨[placeholder], [wLeafA.encode.1, wRoot.encode.1], some wLeafA, none⟩ :
          Walked).sidenodes.length + 1 ∧
      isDescent wStore (digestOf [97]) 0
        (⟨[placeholder], [wLeafA.encode.1, wRoot.encode.1], some wLeafA, none⟩ :
          Walked).pathnodes.reverse
        (⟨[placeholder], [wLeafA.encode.1, wRoot.encode.1], some wLeafA, none⟩ :
          Walked).sidenodes.reverse) :=
  ⟨by decide,
    smt_c8_walk_ordering wStore (digestOf [97]) wRoot.encode.1
      ⟨[placeholder], [wLeafA.encode.1, wRoot.encode.1], some wLeafA, none⟩
      (by decide)⟩
